import Mathlib

/-!
Verification of the s3_fs repository's core: path parsing (`bucket.rs`),
error classification (`errors.rs`), and the directory-tree construction and
query engine (`file.rs`, with its callers in `s3.rs`).

Rust strings are modelled as Lean `String`; the character-level operations
used by the source (`split`, `contains`, `ends_with`, `replace`) are defined
here over `String.data` so that every definition is executable and
kernel-reducible.  Panicking code paths (`unwrap`, out-of-bounds indexing)
are modelled with `Option`: `none` is the panic.

The Rust field and function name `prefix` is rendered as `pfx` throughout
(it is not usable as an identifier here); everything else keeps the
source's names.
-/

/-- Split a character list at every occurrence of `c`, keeping empty pieces,
mirroring Rust's `str::split(char)` (which always yields at least one piece). -/
def splitChar (c : Char) : List Char → List (List Char)
  | [] => [[]]
  | x :: xs =>
    match splitChar c xs with
    | [] => [[]]
    | r :: rs => if x = c then [] :: r :: rs else (x :: r) :: rs

/-- Rust `str::split('/')` on a `String`, as a list of `String` pieces. -/
def splitSlash (s : String) : List String :=
  (splitChar '/' s.data).map String.mk

/-- Rust `str::split('.')` on a `String`, as a list of `String` pieces. -/
def splitDot (s : String) : List String :=
  (splitChar '.' s.data).map String.mk

/-- Rust `str::contains(char)`. -/
def containsChar (s : String) (c : Char) : Bool :=
  s.data.contains c

/-- Rust `str::ends_with(&str)`: `t` is a suffix of `s`. -/
def strEndsWith (s t : String) : Bool :=
  t.data.isSuffixOf s.data

/-- Fuel-driven worker for `rustReplace`; the fuel is the length of the
remaining list, which bounds the number of steps. -/
def replaceAux (pat repl : List Char) : Nat → List Char → List Char
  | 0, l => l
  | _ + 1, [] => []
  | n + 1, x :: xs =>
    if pat.isPrefixOf (x :: xs) then repl ++ replaceAux pat repl n ((x :: xs).drop pat.length)
    else x :: replaceAux pat repl n xs

/-- Rust `str::replace(pat, repl)`: replace every non-overlapping occurrence
of `pat`, left to right.  (Each step consumes at least one character when
`pat` is nonempty, so fuel `= length` is always enough.) -/
def rustReplace (s pat repl : String) : String :=
  String.mk (replaceAux pat.data repl.data s.data.length s.data)

/-- Numeric value of a character, used for the byte/code-point order on
strings (Rust `&str` ordering; for UTF-8 the two coincide). -/
def charN (c : Char) : Nat := c.val.toNat

/-- Strict lexicographic order on character lists, mirroring Rust's `Ord`
for `&str`. -/
def strLtB : List Char → List Char → Bool
  | [], [] => false
  | [], _ :: _ => true
  | _ :: _, [] => false
  | a :: as, b :: bs =>
    if charN a < charN b then true
    else if charN b < charN a then false
    else strLtB as bs

/-- Non-strict lexicographic order on segment sequences (`Vec<&str>` in the
source), mirroring Rust's derived `Ord` for vectors. -/
def segLe : List String → List String → Bool
  | [], _ => true
  | _ :: _, [] => false
  | a :: as, b :: bs =>
    if strLtB a.data b.data then true
    else if strLtB b.data a.data then false
    else segLe as bs

/-- `Iterator::max` over a nonempty sequence of segment sequences: the fold
keeps the later element on ties, exactly as Rust's `max` returns the last
maximal element. -/
def maxSeg (x : List String) : List (List String) → List String
  | [] => x
  | y :: ys => if segLe x y then maxSeg y ys else maxSeg x ys

/-- `rusoto_s3::Object`, restricted to the fields the code reads. -/
structure Object where
  key : Option String
  size : Option Int
  last_modified : Option String
deriving Repr, DecidableEq

/-- `rusoto_s3::CommonPrefix` (`prefix` field rendered `pfx`). -/
structure CommonPrefix where
  pfx : Option String
deriving Repr, DecidableEq

/-- `S3ObjectType` from `file.rs`. -/
inductive S3ObjectType where
  | File
  | Directory
deriving Repr, DecidableEq

/-- `FileMetadata` from `file.rs`. -/
structure FileMetadata where
  last_modified : Option String
  size : Option Int
  extension : Option String
  file_type : S3ObjectType
deriving Repr, DecidableEq

/-- The substring after the last `.`: `name.split('.').last()` in
`FileMetadata::new` (total here; the caller only uses it when `name`
contains a `.`, in which case the split is nonempty). -/
def lastDotSegment (name : String) : String :=
  (splitDot name).getLastD ""

/-- `FileMetadata::new` (file.rs lines 17-39): `Directory` by default; a `.`
in the name makes it a `File` and records the extension; the first matching
object (if any) contributes size and last-modified. -/
def FileMetadata.new (name : String) (s3_objects : List Object) : FileMetadata :=
  let base : FileMetadata := ⟨none, none, none, .Directory⟩
  let withType :=
    if containsChar name '.' then
      { base with extension := some (lastDotSegment name), file_type := .File }
    else base
  match s3_objects with
  | [] => withType
  | o :: _ => { withType with size := o.size, last_modified := o.last_modified }

mutual
/-- The recursive `File` tree node from `file.rs` (field `prefix` rendered
`pfx`); `FileList` is its owned children vector. -/
inductive File where
  | mk (path : String) (name : String) (parent : Option String) (children : FileList)
      (pfx : String) (metadata : FileMetadata)
inductive FileList where
  | nil
  | cons (head : File) (tail : FileList)
end

def File.path : File → String
  | .mk p _ _ _ _ _ => p

def File.name : File → String
  | .mk _ n _ _ _ _ => n

def File.parent : File → Option String
  | .mk _ _ par _ _ _ => par

def File.children : File → FileList
  | .mk _ _ _ ch _ _ => ch

def File.pfx : File → String
  | .mk _ _ _ _ px _ => px

def File.metadata : File → FileMetadata
  | .mk _ _ _ _ _ md => md

/-- `Vec::push` on the children vector. -/
def FileList.push (l : FileList) (f : File) : FileList :=
  match l with
  | .nil => .cons f .nil
  | .cons c cs => .cons c (cs.push f)

mutual
/-- `File::query` (file.rs lines 217-228): depth-first search returning the
first node whose `name` equals `id` (note: the *name*, not the `path`). -/
def File.query (f : File) (id : String) : Option File :=
  match f with
  | .mk p n par ch px md =>
    if n = id then some (.mk p n par ch px md) else FileList.queryL ch id
def FileList.queryL (l : FileList) (id : String) : Option File :=
  match l with
  | .nil => none
  | .cons c cs =>
    match File.query c id with
    | some r => some r
    | none => FileList.queryL cs id
end

/-- `File::add_child` (file.rs lines 202-209): push the child unless
`query(child.path)` finds a node. -/
def File.add_child (f : File) (child : File) : File :=
  match File.query f child.path with
  | none =>
    match f with
    | .mk p n par ch px md => .mk p n par (ch.push child) px md
  | some _ => f

/-- `File::add_children` (file.rs lines 211-215). -/
def File.add_children (f : File) (cs : List File) : File :=
  cs.foldl File.add_child f

mutual
/-- `File::leaf_child` (file.rs lines 230-240): if this node's `path` equals
its recorded `prefix` return it; otherwise recurse into the *first* child
only (`.map(...).next().flatten()` inspects just the first element). -/
def File.leaf_child (f : File) : Option File :=
  match f with
  | .mk p n par ch px md =>
    if p = px then some (.mk p n par ch px md) else FileList.leafFirst ch
def FileList.leafFirst (l : FileList) : Option File :=
  match l with
  | .nil => none
  | .cons c _ => File.leaf_child c
end

mutual
/-- The chain of first children starting at a node: the exact set of nodes
`leaf_child` can ever visit. -/
def File.spine (f : File) : List File :=
  match f with
  | .mk p n par ch px md => .mk p n par ch px md :: FileList.spineL ch
def FileList.spineL (l : FileList) : List File :=
  match l with
  | .nil => []
  | .cons c _ => File.spine c
end

mutual
/-- Every node of the tree, in depth-first order. -/
def File.allNodes (f : File) : List File :=
  match f with
  | .mk p n par ch px md => .mk p n par ch px md :: FileList.allNodesL ch
def FileList.allNodesL (l : FileList) : List File :=
  match l with
  | .nil => []
  | .cons c cs => File.allNodes c ++ FileList.allNodesL cs
end

mutual
/-- Number of nodes in the tree whose `path` (the node id) equals `id`. -/
def File.countPath (id : String) (f : File) : Nat :=
  match f with
  | .mk p _ _ ch _ _ => (if p = id then 1 else 0) + FileList.countPathL id ch
def FileList.countPathL (id : String) (l : FileList) : Nat :=
  match l with
  | .nil => 0
  | .cons c cs => File.countPath id c + FileList.countPathL id cs
end

/-- `File::name_without_slash` (file.rs lines 198-200): `name.replace("/", "")`,
i.e. remove every separator character. -/
def File.name_without_slash (name : String) : String :=
  String.mk (name.data.filter (fun c => !(c = '/')))

/-- `File::generate_file_id` (file.rs lines 179-189). -/
def File.generate_file_id (file_name : String) (parent : Option String) : String :=
  match parent with
  | some p => p ++ "/" ++ file_name
  | none => file_name

/-- `File::filter_objects_for_path` (file.rs lines 191-196): keep the objects
whose key ends with `path`.  The source unwraps every key, so a `none` key
anywhere in the list is a panic (`none` here). -/
def File.filter_objects_for_path (path : String) (objects : List Object) :
    Option (List Object) :=
  if objects.all (fun o => o.key.isSome) then
    some (objects.filter (fun o => strEndsWith (o.key.getD "") path))
  else none

/-- `File::build_file` (file.rs lines 160-177). -/
def File.build_file (px file_name : String) (parent : Option String)
    (s3_objects : List Object) : Option File :=
  match File.filter_objects_for_path file_name s3_objects with
  | none => none
  | some valid =>
    some (.mk (File.generate_file_id file_name parent) file_name parent .nil px
      (FileMetadata.new file_name valid))

/-- The per-candidate segment sequence of `File::longest_path`: split on `/`,
drop empty segments and segments equal to `name_without_slash(name)`. -/
def segsOf (name cand : String) : List String :=
  (splitSlash cand).filter
    (fun o => !(o = "") && !(o = File.name_without_slash name))

/-- `File::longest_path` (file.rs lines 128-158): candidates are every common
prefix, then the listing prefix, then every object key; each is unwrapped
(a missing common-prefix string is a panic), split into segments, and the
maximum segment sequence is returned.  The iterator is never empty because
the listing prefix is always a candidate. -/
def File.longest_path (name : String) (objects : List Object) (px : String)
    (common_prefixes : List CommonPrefix) : Option (List String) :=
  let all_paths : List (Option String) :=
    common_prefixes.map CommonPrefix.pfx ++ [some px] ++ objects.map Object.key
  if all_paths.all (fun p => p.isSome) then
    match all_paths.map (fun p => segsOf name (p.getD "")) with
    | [] => none
    | s :: ss => some (maxSeg s ss)
  else none

/-- The `for (index, _) in other_path_iter.enumerate()` loop of `File::new`
(file.rs lines 84-111), as a recursion over the remaining segments: each
segment is built with the first child's path as parent; a segment with a
successor also gets that successor built beneath it before being added. -/
def File.chain_loop (px : String) (valid : List Object) (fcPath : String) :
    List String → File → Option File
  | [], fc => some fc
  | [x], fc =>
    match File.build_file px x (some fcPath) valid with
    | none => none
    | some current => some (fc.add_child current)
  | x :: y :: rest, fc =>
    match File.build_file px x (some fcPath) valid with
    | none => none
    | some current =>
      match File.build_file px y (some current.path) valid with
      | none => none
      | some next_child =>
        File.chain_loop px valid fcPath (y :: rest)
          (fc.add_child (current.add_child next_child))

/-- `File::new` (file.rs lines 52-118): filter the records, select the
deepest path, build the root, build the first child from the deepest path's
head (`longest_path[0]` — a panic when the selected sequence is empty), run
the chain loop over the remaining segments, and attach the result. -/
def File.new (name : String) (objects : List Object) (px : String)
    (common_prefixes : List CommonPrefix) : Option File :=
  let valid := objects.filter (fun o => o.key.isSome && !(o.key == some name))
  match File.longest_path name valid px common_prefixes with
  | none => none
  | some lp =>
    match File.build_file px (File.name_without_slash name) none valid with
    | none => none
    | some root =>
      match lp with
      | [] => none
      | h :: rest =>
        match File.build_file px h (some root.path) valid with
        | none => none
        | some fc =>
          match File.chain_loop px valid fc.path rest fc with
          | none => none
          | some fc2 => some (root.add_children [fc2])

/-- `File::is_dir` (file.rs lines 120-122): `leaf_child().unwrap()` then
compare the leaf's type with `Directory`; a missing leaf is a panic. -/
def File.is_dir (f : File) : Option Bool :=
  (File.leaf_child f).map (fun l => l.metadata.file_type = .Directory)

/-- `S3PathError` from `errors.rs`. -/
inductive S3PathError where
  | Unknown
  | ExpiredToken
  | ObjectDoesNotExist
  | ObjectAlreadyExists
  | NotADirectory
deriving Repr, DecidableEq

/-- `S3PathOp` from `errors.rs`. -/
inductive S3PathOp where
  | HeadObject
  | GetObject
  | PutObject
  | ListObjects
deriving Repr, DecidableEq

/-- `rusoto_core::RusotoError`, restricted to what `process_error` inspects:
a typed service error, an unknown response carrying an HTTP status string,
or any of the remaining request-level variants (`HttpDispatch`,
`Credentials`, `Validation`, `ParseError`, `Blocking`), which all fall to
the catch-all arm. -/
inductive RusotoError where
  | Service
  | Unknown (status : String)
  | Other
deriving Repr, DecidableEq

/-- `process_error` (errors.rs lines 56-79).  When the backend error is
absent the local error is returned by `unwrap()` — a panic (`none`) if it
is also absent. -/
def process_error (e : Option RusotoError) (s3_path_error : Option S3PathError)
    (op : S3PathOp) : Option S3PathError :=
  match e with
  | none => s3_path_error
  | some rusoto_error =>
    some (match rusoto_error with
      | .Service => .Unknown
      | .Unknown status =>
        if status = "400" then .ExpiredToken
        else if status = "404" ∨ status = "301" then
          match op with
          | .HeadObject => .ObjectDoesNotExist
          | _ => .Unknown
        else .Unknown
      | .Other => .Unknown)

/-- The normalization and segmentation step of `BucketConfig::split_path`
(bucket.rs lines 36-43): strip `s3://`, rewrite `:accesspoint/` to
`:accesspoint:`, split on `/`, and drop empty segments. -/
def splitPathParts (path : String) : List String :=
  (splitSlash (rustReplace (rustReplace path "s3://" "") ":accesspoint/" ":accesspoint:")).filter
    (fun n => !(n = ""))

/-- The remainder of `BucketConfig::split_path` (bucket.rs lines 45-66),
operating on the filtered segments.  `parts[0]` on an empty list is a panic
(`none`), as is the (unreachable) embedded-separator check on the bucket
name. -/
def splitPathFromParts (parts : List String) : Option (String × String × Option String) :=
  match parts with
  | [] => none
  | bucket :: rest =>
    if containsChar bucket '/' then none
    else
      match rest with
      | [] => some (bucket, "", none)
      | [a] => some (bucket, a ++ "/", some (a ++ "/"))
      | a :: more => some (bucket, a ++ "/",
          some (String.intercalate "/" (a :: more) ++ "/"))

/-- `BucketConfig::split_path` (bucket.rs lines 36-67), producing
`(name, key, full_path)`. -/
def BucketConfig.split_path (path : String) : Option (String × String × Option String) :=
  splitPathFromParts (splitPathParts path)

/-- `S3Path::build_files` (s3.rs lines 247-260): `none` when the listing
call failed (the field stays `None`); otherwise build the tree from the
listing triple with the bucket key as the origin name. -/
def S3Path.build_files (key : String)
    (listing : Option (List Object × List CommonPrefix × String)) : Option File :=
  match listing with
  | none => none
  | some (objects, common_prefixes, px) => File.new key objects px common_prefixes

/-- `S3Path::is_dir` in lazy mode (s3.rs lines 181-192): a failed existence
check answers `false` with no further calls; otherwise the tree is built and
`file.as_ref().unwrap().is_dir()` is read (any construction or leaf failure
is a panic, `none`). -/
def S3Path.is_dir_lazy (existsRes : Bool) (key : String)
    (listing : Option (List Object × List CommonPrefix × String)) : Option Bool :=
  match existsRes with
  | true => (S3Path.build_files key listing).bind File.is_dir
  | false => some false

/-- `S3Path::is_file` (s3.rs lines 203-205): the negation of `is_dir`. -/
def S3Path.is_file_lazy (existsRes : Bool) (key : String)
    (listing : Option (List Object × List CommonPrefix × String)) : Option Bool :=
  (S3Path.is_dir_lazy existsRes key listing).map (fun b => !b)

/-- Modelled from the spec's wording for the deepest-path filter (§4.3 step
2): it drops segments equal to `origin_name` "stripped of trailing
separators" — unlike the source, which removes every separator from
`origin_name` before comparing. -/
def stripTrailingSlashes (s : String) : String :=
  String.mk ((s.data.reverse.dropWhile (fun c => c = '/')).reverse)

/-- The claim's (spec-side) segment sequence of a candidate path, used to
compare the spec's description of `longest_path` with the source. -/
def specSegsOf (name cand : String) : List String :=
  (splitSlash cand).filter
    (fun o => !(o = "") && !(o = stripTrailingSlashes name))

/-- The candidate paths of `File::longest_path`, in iteration order: every
common prefix, then the listing prefix, then every object key. -/
def candidatesOf (objects : List Object) (px : String) (cps : List CommonPrefix) :
    List String :=
  cps.filterMap CommonPrefix.pfx ++ [px] ++ objects.filterMap Object.key

/-- `lp` is one of `cands` and is an upper bound of `cands` in the
lexicographic segment order. -/
def isMaxOf (lp : List String) (cands : List (List String)) : Bool :=
  cands.contains lp && cands.all (fun s => segLe s lp)

/-- The per-node File/Directory metadata discipline: a `.` in the node's
name means kind `File` with the substring after the last `.` recorded as
the extension; no `.` means kind `Directory`. -/
def metaOkB (n : File) : Bool :=
  if containsChar n.name '.' then
    n.metadata.file_type == .File && n.metadata.extension == some (lastDotSegment n.name)
  else n.metadata.file_type == .Directory

/-- Every node of the tree satisfies the metadata discipline. -/
def treeMetaOk (f : File) : Bool :=
  (File.allNodes f).all metaOkB

/-- The tree `File::new` builds for origin name `"a/"`, one record with key
`"a/x.txt"`, listing prefix `"a/"` and no common prefixes. -/
def c7ExampleTree : File :=
  .mk "a" "a" none
    (.cons (.mk "a/x.txt" "x.txt" (some "a") .nil "a/" ⟨none, none, some "txt", .File⟩) .nil)
    "a/" ⟨none, none, none, .Directory⟩

/-! ## Order lemmas for the deepest-path selection -/

theorem strLtB_trans : ∀ {a b c : List Char},
    strLtB a b = true → strLtB b c = true → strLtB a c = true
  | [], [], _, h1, _ => by simp [strLtB] at h1
  | [], _ :: _, [], _, h2 => by simp [strLtB] at h2
  | [], _ :: _, _ :: _, _, _ => by simp [strLtB]
  | _ :: _, [], _, h1, _ => by simp [strLtB] at h1
  | _ :: _, _ :: _, [], _, h2 => by simp [strLtB] at h2
  | a :: as, b :: bs, c :: cs, h1, h2 => by
    simp only [strLtB] at h1 h2 ⊢
    by_cases hab : charN a < charN b
    · by_cases hbc : charN b < charN c
      · simp [Nat.lt_trans hab hbc]
      · by_cases hcb : charN c < charN b
        · simp [hbc, hcb] at h2
        · have hac : charN a < charN c := by omega
          simp [hac]
    · by_cases hba : charN b < charN a
      · simp [hab, hba] at h1
      · by_cases hbc : charN b < charN c
        · have hac : charN a < charN c := by omega
          simp [hac]
        · by_cases hcb : charN c < charN b
          · simp [hbc, hcb] at h2
          · have hac : ¬ charN a < charN c := by omega
            have hca : ¬ charN c < charN a := by omega
            rw [if_neg hab, if_neg hba] at h1
            rw [if_neg hbc, if_neg hcb] at h2
            rw [if_neg hac, if_neg hca]
            exact strLtB_trans h1 h2

theorem strLtB_congr_left : ∀ {u v : List Char} (w : List Char),
    strLtB u v = false → strLtB v u = false → strLtB u w = strLtB v w
  | [], [], _, _, _ => rfl
  | [], _ :: _, _, h1, _ => by simp [strLtB] at h1
  | _ :: _, [], _, _, h2 => by simp [strLtB] at h2
  | _ :: _, _ :: _, [], _, _ => by simp [strLtB]
  | a :: as, b :: bs, c :: cs, h1, h2 => by
    simp only [strLtB] at h1 h2 ⊢
    by_cases hab : charN a < charN b
    · simp [hab] at h1
    · by_cases hba : charN b < charN a
      · simp [hab, hba] at h1 h2
      · rw [if_neg hab, if_neg hba] at h1
        rw [if_neg hba, if_neg hab] at h2
        by_cases hbc : charN b < charN c
        · have hac : charN a < charN c := by omega
          rw [if_pos hac, if_pos hbc]
        · by_cases hcb : charN c < charN b
          · have hca : charN c < charN a := by omega
            rw [if_neg (by omega : ¬ charN a < charN c), if_pos hca,
              if_neg hbc, if_pos hcb]
          · rw [if_neg (by omega : ¬ charN a < charN c),
              if_neg (by omega : ¬ charN c < charN a), if_neg hbc, if_neg hcb]
            exact strLtB_congr_left cs h1 h2

theorem strLtB_congr_right : ∀ {u v : List Char} (w : List Char),
    strLtB u v = false → strLtB v u = false → strLtB w u = strLtB w v
  | [], [], _, _, _ => rfl
  | [], _ :: _, _, h1, _ => by simp [strLtB] at h1
  | _ :: _, [], _, _, h2 => by simp [strLtB] at h2
  | _ :: _, _ :: _, [], _, _ => by simp [strLtB]
  | a :: as, b :: bs, c :: cs, h1, h2 => by
    simp only [strLtB] at h1 h2 ⊢
    by_cases hab : charN a < charN b
    · simp [hab] at h1
    · by_cases hba : charN b < charN a
      · simp [hab, hba] at h1 h2
      · rw [if_neg hab, if_neg hba] at h1
        rw [if_neg hba, if_neg hab] at h2
        by_cases hcb : charN c < charN b
        · have hca : charN c < charN a := by omega
          rw [if_pos hca, if_pos hcb]
        · by_cases hbc : charN b < charN c
          · have hac : charN a < charN c := by omega
            rw [if_neg (by omega : ¬ charN c < charN a), if_pos hac,
              if_neg hcb, if_pos hbc]
          · rw [if_neg (by omega : ¬ charN c < charN a),
              if_neg (by omega : ¬ charN a < charN c), if_neg hcb, if_neg hbc]
            exact strLtB_congr_right cs h1 h2

theorem strLtB_irrefl : ∀ (a : List Char), strLtB a a = false
  | [] => rfl
  | a :: as => by simp [strLtB, strLtB_irrefl as]

theorem segLe_refl : ∀ (a : List String), segLe a a = true
  | [] => rfl
  | x :: xs => by simp [segLe, strLtB_irrefl, segLe_refl xs]

theorem segLe_of_not_segLe : ∀ {a b : List String},
    segLe a b = false → segLe b a = true
  | [], _, h => by simp [segLe] at h
  | _ :: _, [], _ => by simp [segLe]
  | a :: as, b :: bs, h => by
    simp only [segLe] at h ⊢
    by_cases h1 : strLtB a.data b.data
    · simp [h1] at h
    · by_cases h2 : strLtB b.data a.data
      · simp [h2]
      · simp only [h1, h2, if_false] at h ⊢
        exact segLe_of_not_segLe h

theorem bool_eq_false {b : Bool} (h : ¬ b = true) : b = false := by
  cases b with
  | false => rfl
  | true => exact absurd rfl h

theorem segLe_trans : ∀ {a b c : List String},
    segLe a b = true → segLe b c = true → segLe a c = true
  | [], _, _, _, _ => by simp [segLe]
  | _ :: _, [], _, h1, _ => by simp [segLe] at h1
  | _ :: _, _ :: _, [], _, h2 => by simp [segLe] at h2
  | a :: as, b :: bs, c :: cs, h1, h2 => by
    simp only [segLe] at h1 h2 ⊢
    by_cases hab : strLtB a.data b.data = true
    · by_cases hbc : strLtB b.data c.data = true
      · rw [if_pos (strLtB_trans hab hbc)]
      · by_cases hcb : strLtB c.data b.data = true
        · rw [if_neg hbc, if_pos hcb] at h2
          exact absurd h2 (by simp)
        · rw [strLtB_congr_right a.data (bool_eq_false hbc) (bool_eq_false hcb)] at hab
          rw [if_pos hab]
    · by_cases hba : strLtB b.data a.data = true
      · rw [if_neg hab, if_pos hba] at h1
        exact absurd h1 (by simp)
      · rw [if_neg hab, if_neg hba] at h1
        by_cases hbc : strLtB b.data c.data = true
        · have hac : strLtB a.data c.data = true := by
            rw [strLtB_congr_left c.data (bool_eq_false hab) (bool_eq_false hba)]
            exact hbc
          rw [if_pos hac]
        · by_cases hcb : strLtB c.data b.data = true
          · rw [if_neg hbc, if_pos hcb] at h2
            exact absurd h2 (by simp)
          · rw [if_neg hbc, if_neg hcb] at h2
            have hac : ¬ strLtB a.data c.data = true := by
              rw [strLtB_congr_left c.data (bool_eq_false hab) (bool_eq_false hba)]
              exact hbc
            have hca : ¬ strLtB c.data a.data = true := by
              rw [strLtB_congr_right c.data (bool_eq_false hab) (bool_eq_false hba)]
              exact hcb
            rw [if_neg hac, if_neg hca]
            exact segLe_trans h1 h2

theorem maxSeg_mem : ∀ (l : List (List String)) (x : List String),
    maxSeg x l ∈ x :: l
  | [], x => by simp [maxSeg]
  | y :: ys, x => by
    by_cases h : segLe x y = true
    · rw [show maxSeg x (y :: ys) = maxSeg y ys from by simp [maxSeg, h]]
      exact List.mem_cons_of_mem x (maxSeg_mem ys y)
    · rw [show maxSeg x (y :: ys) = maxSeg x ys from by
        simp [maxSeg, Bool.not_eq_true _ ▸ h]]
      rcases List.mem_cons.mp (maxSeg_mem ys x) with h1 | h1
      · simp [h1]
      · exact List.mem_cons_of_mem _ (List.mem_cons_of_mem _ h1)

theorem maxSeg_ub : ∀ (l : List (List String)) (x z : List String),
    z ∈ x :: l → segLe z (maxSeg x l) = true
  | [], x, z, hz => by
    simp only [List.mem_singleton] at hz
    rw [hz]; simp [maxSeg, segLe_refl]
  | y :: ys, x, z, hz => by
    by_cases h : segLe x y = true
    · rw [show maxSeg x (y :: ys) = maxSeg y ys from by simp [maxSeg, h]]
      rcases List.mem_cons.mp hz with h1 | h1
      · have hy : segLe y (maxSeg y ys) = true :=
          maxSeg_ub ys y y (List.mem_cons_self _ _)
        exact h1 ▸ segLe_trans h hy
      · exact maxSeg_ub ys y z h1
    · have hyx : segLe y x = true :=
        segLe_of_not_segLe (Bool.not_eq_true _ ▸ h)
      rw [show maxSeg x (y :: ys) = maxSeg x ys from by
        simp [maxSeg, Bool.not_eq_true _ ▸ h]]
      rcases List.mem_cons.mp hz with h1 | h1
      · exact h1 ▸ maxSeg_ub ys x x (List.mem_cons_self _ _)
      · rcases List.mem_cons.mp h1 with h2 | h2
        · have hx : segLe x (maxSeg x ys) = true :=
            maxSeg_ub ys x x (List.mem_cons_self _ _)
          exact h2 ▸ segLe_trans hyx hx
        · exact maxSeg_ub ys x z (List.mem_cons_of_mem _ h2)

theorem maxSeg_nil : ∀ (l : List (List String)),
    (∀ y ∈ l, y = []) → maxSeg [] l = []
  | [], _ => rfl
  | y :: ys, h => by
    have hy : y = [] := h y (List.mem_cons_self _ _)
    subst hy
    rw [show maxSeg [] ([] :: ys) = maxSeg [] ys from by simp [maxSeg, segLe]]
    exact maxSeg_nil ys (fun z hz => h z (List.mem_cons_of_mem _ hz))

/-! ## Tree lemmas -/

theorem allNodesL_push : ∀ (l : FileList) (f : File),
    FileList.allNodesL (l.push f) = FileList.allNodesL l ++ File.allNodes f
  | .nil, f => by simp [FileList.push, FileList.allNodesL]
  | .cons c cs, f => by
    simp [FileList.push, FileList.allNodesL, allNodesL_push cs f]

theorem metaOkB_new (p n : String) (par : Option String) (ch : FileList) (px : String)
    (objs : List Object) :
    metaOkB (.mk p n par ch px (FileMetadata.new n objs)) = true := by
  simp only [metaOkB, File.name, File.metadata, FileMetadata.new]
  by_cases h : containsChar n '.' = true
  · cases objs with
    | nil => simp [h]
    | cons o t => simp [h]
  · cases objs with
    | nil => simp [h]
    | cons o t => simp [h]

theorem add_child_good (f c : File)
    (hf : ∀ n ∈ File.allNodes f, metaOkB n = true)
    (hc : ∀ n ∈ File.allNodes c, metaOkB n = true) :
    ∀ n ∈ File.allNodes (f.add_child c), metaOkB n = true := by
  match f with
  | .mk p nm par ch px md =>
    simp only [File.add_child]
    cases hq : File.query (.mk p nm par ch px md) c.path with
    | some r => exact hf
    | none =>
      intro n hn
      simp only [File.allNodes, allNodesL_push, List.mem_cons, List.mem_append] at hn
      rcases hn with h1 | h1 | h1
      · subst h1
        have hh := hf (File.mk p nm par ch px md) (by simp [File.allNodes])
        simp only [metaOkB, File.name, File.metadata] at hh ⊢
        exact hh
      · exact hf n (by simp [File.allNodes, h1])
      · exact hc n h1

theorem build_file_good (px fn : String) (par : Option String) (objs : List Object)
    (f : File) (h : File.build_file px fn par objs = some f) :
    ∀ n ∈ File.allNodes f, metaOkB n = true := by
  simp only [File.build_file] at h
  cases hq : File.filter_objects_for_path fn objs with
  | none => rw [hq] at h; exact absurd h (by simp)
  | some v =>
    rw [hq] at h
    simp only [Option.some.injEq] at h
    subst h
    intro n hn
    simp only [File.allNodes, FileList.allNodesL, List.mem_cons,
      List.not_mem_nil, or_false] at hn
    subst hn
    exact metaOkB_new _ _ _ _ _ _

theorem chain_loop_good (px fcPath : String) (valid : List Object) :
    ∀ (segs : List String) (fc out : File),
    (∀ n ∈ File.allNodes fc, metaOkB n = true) →
    File.chain_loop px valid fcPath segs fc = some out →
    ∀ n ∈ File.allNodes out, metaOkB n = true
  | [], fc, out, hfc, h => by
    simp only [File.chain_loop, Option.some.injEq] at h
    subst h
    exact hfc
  | [x], fc, out, hfc, h => by
    simp only [File.chain_loop] at h
    cases hb : File.build_file px x (some fcPath) valid with
    | none => rw [hb] at h; exact absurd h (by simp)
    | some current =>
      rw [hb] at h
      simp only [Option.some.injEq] at h
      subst h
      exact add_child_good fc current hfc (build_file_good _ _ _ _ _ hb)
  | x :: y :: rest, fc, out, hfc, h => by
    simp only [File.chain_loop] at h
    cases hb1 : File.build_file px x (some fcPath) valid with
    | none => rw [hb1] at h; exact absurd h (by simp)
    | some current =>
      simp only [hb1] at h
      cases hb2 : File.build_file px y (some current.path) valid with
      | none => simp only [hb2] at h; exact absurd h (by simp)
      | some next_child =>
        simp only [hb2] at h
        exact chain_loop_good px fcPath valid (y :: rest)
          (fc.add_child (current.add_child next_child)) out
          (add_child_good _ _ hfc
            (add_child_good _ _ (build_file_good _ _ _ _ _ hb1)
              (build_file_good _ _ _ _ _ hb2)))
          h

/-! ## Leaf lookup as a first-child-chain search -/

mutual
theorem leaf_child_eq_spine : ∀ (f : File),
    File.leaf_child f = (File.spine f).find? (fun n => n.path == n.pfx)
  | .mk p n par ch px md => by
    by_cases h : p = px
    · rw [show File.leaf_child (.mk p n par ch px md) = some (.mk p n par ch px md) from by
        simp [File.leaf_child, h]]
      rw [File.spine]
      rw [List.find?_cons_of_pos _ (by simp [File.path, File.pfx, h])]
    · rw [show File.leaf_child (.mk p n par ch px md) = FileList.leafFirst ch from by
        simp [File.leaf_child, h]]
      rw [File.spine]
      rw [List.find?_cons_of_neg _ (by simp [File.path, File.pfx, h])]
      exact leafFirst_eq_spineL ch
theorem leafFirst_eq_spineL : ∀ (l : FileList),
    FileList.leafFirst l = (FileList.spineL l).find? (fun n => n.path == n.pfx)
  | .nil => by simp [FileList.leafFirst, FileList.spineL]
  | .cons c cs => by
    simp only [FileList.leafFirst, FileList.spineL]
    exact leaf_child_eq_spine c
end

/-! ## Support for the deepest-path theorems -/

theorem map_getD_eq_filterMap : ∀ (l : List (Option String)),
    l.all (fun p => p.isSome) = true →
    l.map (fun p => p.getD "") = l.filterMap id
  | [], _ => rfl
  | none :: t, h => by simp at h
  | some a :: t, h => by
    simp only [List.all_cons, Bool.and_eq_true] at h
    simp [List.filterMap_cons, map_getD_eq_filterMap t h.2]

/-! ## Claim theorems -/

/-- Claim C1 (evidence against the claim): dedup-by-id on insertion does not
hold.  `add_child` checks `query(child.path)`, but `query` compares the *name*
of each node with the given id, and no node name ever contains the separator
that every nested id contains, so the check never finds the existing node.
Building a tree from origin name `"a/"`, one record with key `"a/b/c/c"` and
listing prefix `"a/"` selects the deepest path `["b", "c", "c"]` and inserts
*two* nodes with id `"a/b/c"` under `"a/b"`; likewise, re-adding the same
child to a node duplicates it instead of being a no-op. -/
theorem C1_duplicate_id_nodes :
    (File.new "a/" [⟨some "a/b/c/c", none, none⟩] "a/" []).map (File.countPath "a/b/c")
      = some 2
    ∧ File.countPath "a/b"
        (((File.mk "a" "a" none .nil "a/" ⟨none, none, none, .Directory⟩).add_child
          (File.mk "a/b" "b" (some "a") .nil "a/" ⟨none, none, none, .Directory⟩)).add_child
          (File.mk "a/b" "b" (some "a") .nil "a/" ⟨none, none, none, .Directory⟩)) = 2 :=
  ⟨by decide, by decide⟩

/-- Claim C2 (counterexample): for a tree built with base prefix and recorded
origin prefix `"a/b/"` (origin name `"b/"`) and an entry `"a/b/c.txt"`,
`leaf_child` returns nothing — no node id ever ends with a separator — so
`leaf().kind` is not `Directory` there (reading it is a panic). -/
theorem C2_leaf_counterexample :
    (File.new "b/" [⟨some "a/b/c.txt", none, none⟩] "a/b/" []).map
      (fun f => ((File.leaf_child f).isNone, f.pfx)) = some (true, "a/b/") := by
  decide

/-- Claim C2 (amended): `leaf_child` is not a whole-tree depth-first search;
it inspects exactly the chain of first children (the spine) and returns the
first node on it whose id equals the recorded origin prefix.  On the claim's
concrete build (origin name `"b/"`, base and origin prefix `"a/b/"`, entry
`"a/b/c.txt"`) the leaf is therefore empty, while the distinct node for
`c.txt` does have kind `File` with extension `"txt"`. -/
theorem C2_leaf_first_child_chain :
    (∀ f : File, File.leaf_child f = (File.spine f).find? (fun n => n.path == n.pfx))
    ∧ (File.new "b/" [⟨some "a/b/c.txt", none, none⟩] "a/b/" []).map
        (fun f => ((File.leaf_child f).isNone, f.pfx)) = some (true, "a/b/")
    ∧ ((File.new "b/" [⟨some "a/b/c.txt", none, none⟩] "a/b/" []).bind
        (fun f => File.query f "c.txt")).map
        (fun n => (n.path, n.metadata.file_type, n.metadata.extension)) =
      some ("b/a/c.txt", S3ObjectType.File, some "txt") :=
  ⟨leaf_child_eq_spine, by decide, by decide⟩

/-- Claim C3 (counterexample): the filter drops segments equal to the origin
name with *all* separators removed, not "stripped of trailing separators".
With origin name `"a/b"`, listing prefix `"ab/z"` and one record `"y"`, the
code selects `["z"]` (it drops the segment `"ab"`), while under the claim's
description the candidates' sequences are `["ab", "z"]` and `["y"]`, whose
lexicographic maximum is `["y"]` — a different candidate, and a different
sequence. -/
theorem C3_spec_filter_counterexample :
    File.longest_path "a/b" [⟨some "y", none, none⟩] "ab/z" [] = some ["z"]
    ∧ specSegsOf "a/b" "ab/z" = ["ab", "z"]
    ∧ specSegsOf "a/b" "y" = ["y"]
    ∧ maxSeg (specSegsOf "a/b" "ab/z") [specSegsOf "a/b" "y"] = ["y"] :=
  ⟨by decide, by decide, by decide, by decide⟩

/-- Claim C3 (amended): for every build input whose common prefixes and
record keys are all present, the selected deepest path is the segment
sequence — split on `/`, dropping empty segments and segments equal to the
origin name with all separators removed — of one of the candidates
(`base_prefix`, every common prefix, every record key), and it is
lexicographically greatest among all the candidates' sequences. -/
theorem C3_deepest_path_is_lex_max (name px : String) (objects : List Object)
    (cps : List CommonPrefix) (lp : List String)
    (hc : cps.all (fun c => c.pfx.isSome) = true)
    (ho : objects.all (fun o => o.key.isSome) = true)
    (hlp : File.longest_path name objects px cps = some lp) :
    isMaxOf lp ((candidatesOf objects px cps).map (segsOf name)) = true := by
  have hall : (cps.map CommonPrefix.pfx ++ [some px] ++ objects.map Object.key).all
      (fun p => p.isSome) = true := by
    rw [List.all_eq_true]
    intro p hpmem
    rcases List.mem_append.mp hpmem with h1 | h1
    · rcases List.mem_append.mp h1 with h2 | h2
      · rcases List.mem_map.mp h2 with ⟨c, hcm, rfl⟩
        exact (List.all_eq_true.mp hc) c hcm
      · simp only [List.mem_singleton] at h2
        subst h2; rfl
    · rcases List.mem_map.mp h1 with ⟨o, hom, rfl⟩
      exact (List.all_eq_true.mp ho) o hom
  have hmap : (cps.map CommonPrefix.pfx ++ [some px] ++ objects.map Object.key).map
      (fun p => segsOf name (p.getD "")) =
      (candidatesOf objects px cps).map (segsOf name) := by
    have h2 : (cps.map CommonPrefix.pfx ++ [some px] ++ objects.map Object.key).map
        (fun p => segsOf name (p.getD "")) =
        ((cps.map CommonPrefix.pfx ++ [some px] ++ objects.map Object.key).map
          (fun p => p.getD "")).map (segsOf name) := by
      rw [List.map_map]; rfl
    rw [h2, map_getD_eq_filterMap _ hall]
    simp [candidatesOf, List.filterMap_append, List.filterMap_map, Function.comp]
  simp only [File.longest_path] at hlp
  rw [if_pos hall, hmap] at hlp
  cases hM : (candidatesOf objects px cps).map (segsOf name) with
  | nil =>
    rw [hM] at hlp
    exact Option.noConfusion hlp
  | cons s ss =>
    rw [hM] at hlp
    simp only [Option.some.injEq] at hlp
    subst hlp
    simp only [isMaxOf, Bool.and_eq_true]
    refine ⟨List.elem_eq_true_of_mem (maxSeg_mem ss s), ?_⟩
    rw [List.all_eq_true]
    intro x hx
    exact maxSeg_ub ss s x hx

/-- Claim C3 witness: a concrete build input on which the amended theorem's
hypotheses hold and the selected path `["x.txt"]` is the lexicographic
maximum of the candidates' segment sequences. -/
theorem C3_witness :
    isMaxOf ["x.txt"]
      ((candidatesOf [⟨some "a/x.txt", none, none⟩] "a/" []).map (segsOf "a/")) = true :=
  C3_deepest_path_is_lex_max "a/" "a/" [⟨some "a/x.txt", none, none⟩] [] ["x.txt"]
    (by decide) (by decide) (by decide)

/-- Claim C4: on the filtered segments `container :: a :: b :: rest` the
parser yields key `a ++ "/"` (the immediate child plus trailing separator)
and full key equal to all remaining segments joined by `/` plus a trailing
separator; with exactly one further segment both key and full key are that
segment plus separator; with none the key is empty and the full key unset —
and the three concrete `scheme://` forms of the claim parse accordingly. -/
theorem C4_split_path_forms (c a b : String) (rest : List String)
    (hc : containsChar c '/' = false) :
    splitPathFromParts (c :: a :: b :: rest) =
      some (c, a ++ "/", some (String.intercalate "/" (a :: b :: rest) ++ "/"))
    ∧ splitPathFromParts [c, a] = some (c, a ++ "/", some (a ++ "/"))
    ∧ splitPathFromParts [c] = some (c, "", none)
    ∧ BucketConfig.split_path "s3://C/a/b/c" = some ("C", "a/", some "a/b/c/")
    ∧ BucketConfig.split_path "s3://C/a" = some ("C", "a/", some "a/")
    ∧ BucketConfig.split_path "s3://C" = some ("C", "", none) := by
  refine ⟨?_, ?_, ?_, by decide, by decide, by decide⟩
  · simp [splitPathFromParts, hc]
  · simp [splitPathFromParts, hc]
  · simp [splitPathFromParts, hc]

/-- Claim C4 witness: the shapes at container `"C"` and segments
`"a"`, `"b"`. -/
theorem C4_witness :
    splitPathFromParts ["C", "a", "b"] =
      some ("C", "a/", some (String.intercalate "/" ["a", "b"] ++ "/"))
    ∧ splitPathFromParts ["C", "a"] = some ("C", "a/", some ("a/"))
    ∧ splitPathFromParts ["C"] = some ("C", "", none)
    ∧ BucketConfig.split_path "s3://C/a/b/c" = some ("C", "a/", some "a/b/c/")
    ∧ BucketConfig.split_path "s3://C/a" = some ("C", "a/", some "a/")
    ∧ BucketConfig.split_path "s3://C" = some ("C", "", none) :=
  C4_split_path_forms "C" "a" "b" [] (by decide)

/-- Claim C5: the classifier maps status `"400"` to `ExpiredToken`; maps
`"404"` or `"301"` to `ObjectDoesNotExist` when the operation is the
existence/metadata check (`HeadObject`) and to `Unknown` for every other
operation; and maps any other status, as well as request-level failures
carrying no status (`Service` and the remaining variants), to `Unknown`. -/
theorem C5_classifier_mapping (st : String) (s : Option S3PathError) (op : S3PathOp) :
    process_error (some (.Unknown "400")) s op = some .ExpiredToken
    ∧ ((st = "404" ∨ st = "301") →
        process_error (some (.Unknown st)) s .HeadObject = some .ObjectDoesNotExist)
    ∧ ((st = "404" ∨ st = "301") → op ≠ .HeadObject →
        process_error (some (.Unknown st)) s op = some .Unknown)
    ∧ (st ≠ "400" → st ≠ "404" → st ≠ "301" →
        process_error (some (.Unknown st)) s op = some .Unknown)
    ∧ process_error (some .Service) s op = some .Unknown
    ∧ process_error (some .Other) s op = some .Unknown := by
  refine ⟨rfl, ?_, ?_, ?_, rfl, rfl⟩
  · rintro (rfl | rfl) <;> rfl
  · rintro (rfl | rfl) hop <;>
      cases op with
      | HeadObject => exact absurd rfl hop
      | GetObject => rfl
      | PutObject => rfl
      | ListObjects => rfl
  · intro h1 h2 h3
    simp only [process_error]
    rw [if_neg h1, if_neg (not_or.mpr ⟨h2, h3⟩)]

/-- Claim C5 witness: `404` on the existence check, `404` on a listing, and
an unrecognized status `500`. -/
theorem C5_witness :
    process_error (some (.Unknown "404")) none S3PathOp.HeadObject =
      some .ObjectDoesNotExist
    ∧ process_error (some (.Unknown "404")) none S3PathOp.ListObjects = some .Unknown
    ∧ process_error (some (.Unknown "500")) none S3PathOp.GetObject = some .Unknown :=
  ⟨(C5_classifier_mapping "404" none S3PathOp.ListObjects).2.1 (Or.inl rfl),
   (C5_classifier_mapping "404" none S3PathOp.ListObjects).2.2.1 (Or.inl rfl) (by decide),
   (C5_classifier_mapping "500" none S3PathOp.GetObject).2.2.2.1
     (by decide) (by decide) (by decide)⟩

/-- Claim C6 (counterexample): the classifier is not total over every
combination of inputs — when the backend error and the locally-detected
error are both absent, `s3_path_error.unwrap()` panics (modelled `none`). -/
theorem C6_totality_counterexample :
    process_error (none : Option RusotoError) (none : Option S3PathError)
      S3PathOp.GetObject = none := rfl

/-- Claim C6 (amended): the classifier is pure and returns exactly one error
kind whenever at least one of the two error inputs is present; it never
fails in that domain, and an unrecognized status degrades to `Unknown`. -/
theorem C6_total_when_some_input (e : Option RusotoError) (s : Option S3PathError)
    (op : S3PathOp) (h : e.isSome = true ∨ s.isSome = true) :
    (process_error e s op).isSome = true := by
  cases e with
  | some r => cases r <;> simp [process_error]
  | none =>
    rcases h with h | h
    · simp at h
    · simpa [process_error] using h

/-- Claim C6 witness: a request-level failure with no local error. -/
theorem C6_witness :
    (process_error (some RusotoError.Other) none S3PathOp.GetObject).isSome = true :=
  C6_total_when_some_input (some RusotoError.Other) none S3PathOp.GetObject (Or.inl rfl)

/-- Claim C7: in every tree `File::new` builds, each node's kind is `File`
exactly when its display name contains a `.`, in which case the extension is
the substring after the last `.`; otherwise the kind is `Directory`. -/
theorem C7_file_iff_dot (name px : String) (objects : List Object)
    (cps : List CommonPrefix) (f : File)
    (h : File.new name objects px cps = some f) :
    treeMetaOk f = true := by
  have hall : ∀ n ∈ File.allNodes f, metaOkB n = true := by
    simp only [File.new] at h
    cases h1 : File.longest_path name
        (objects.filter (fun o => o.key.isSome && !(o.key == some name))) px cps with
    | none => rw [h1] at h; exact Option.noConfusion h
    | some lp =>
      simp only [h1] at h
      cases h2 : File.build_file px (File.name_without_slash name) none
          (objects.filter (fun o => o.key.isSome && !(o.key == some name))) with
      | none => simp only [h2] at h; exact Option.noConfusion h
      | some root =>
        simp only [h2] at h
        cases lp with
        | nil => exact Option.noConfusion h
        | cons hd rest =>
          cases h3 : File.build_file px hd (some root.path)
              (objects.filter (fun o => o.key.isSome && !(o.key == some name))) with
          | none => simp only [h3] at h; exact Option.noConfusion h
          | some fc =>
            simp only [h3] at h
            cases h4 : File.chain_loop px
                (objects.filter (fun o => o.key.isSome && !(o.key == some name)))
                fc.path rest fc with
            | none => simp only [h4] at h; exact Option.noConfusion h
            | some fc2 =>
              simp only [h4, Option.some.injEq] at h
              subst h
              have hroot := build_file_good _ _ _ _ _ h2
              have hfc := build_file_good _ _ _ _ _ h3
              have hfc2 := chain_loop_good px fc.path _ rest fc fc2 hfc h4
              have hadd := add_child_good root fc2 hroot hfc2
              simpa [File.add_children] using hadd
  simpa [treeMetaOk, List.all_eq_true] using hall

/-- Claim C7 witness: the tree built from origin name `"a/"`, one record
`"a/x.txt"` and prefix `"a/"` satisfies the per-node metadata discipline. -/
theorem C7_witness :
    File.new "a/" [⟨some "a/x.txt", none, none⟩] "a/" [] = some c7ExampleTree
    ∧ treeMetaOk c7ExampleTree = true :=
  ⟨rfl, C7_file_iff_dot "a/" "a/" [⟨some "a/x.txt", none, none⟩] [] c7ExampleTree rfl⟩

/-- Claim C8: in lazy mode, a failed existence check makes `is_dir` answer
`false`, and since `is_file` is the negation of `is_dir`, `is_file` answers
`true` for every path that does not exist, whatever the listing would have
returned. -/
theorem C8_nonexistent_is_file (key : String)
    (listing : Option (List Object × List CommonPrefix × String)) :
    S3Path.is_dir_lazy false key listing = some false
    ∧ S3Path.is_file_lazy false key listing = some true :=
  ⟨rfl, rfl⟩

/-- Claim C9: whenever normalization and splitting leave no nonempty
segment, `split_path` indexes `parts[0]` out of bounds and has no defined
result (modelled `none`); `""`, `"/"` and `"s3://"` are such inputs. -/
theorem C9_empty_segments_unparseable (s : String) (h : splitPathParts s = []) :
    BucketConfig.split_path s = none
    ∧ splitPathParts "" = [] ∧ splitPathParts "/" = [] ∧ splitPathParts "s3://" = [] := by
  refine ⟨?_, by decide, by decide, by decide⟩
  unfold BucketConfig.split_path
  rw [h]
  rfl

/-- Claim C9 witness: the empty input. -/
theorem C9_witness :
    BucketConfig.split_path "" = none
    ∧ splitPathParts "" = [] ∧ splitPathParts "/" = [] ∧ splitPathParts "s3://" = [] :=
  C9_empty_segments_unparseable "" (by decide)

/-- Claim C10: when every candidate path's filtered segment sequence is
empty — every common prefix, the base prefix, and every filtered record's
key reduce to no segments — the selected deepest path is empty and
`File::new` indexes its first element, which does not exist: tree
construction has no defined result (modelled `none`). -/
theorem C10_all_empty_candidates (name px : String) (objects : List Object)
    (cps : List CommonPrefix)
    (hc : cps.all (fun c => c.pfx.isSome && (segsOf name (c.pfx.getD "") == [])) = true)
    (hp : segsOf name px = [])
    (ho : (objects.filter (fun o => o.key.isSome && !(o.key == some name))).all
        (fun o => segsOf name (o.key.getD "") == []) = true) :
    File.new name objects px cps = none := by
  have hvsome : (objects.filter (fun o => o.key.isSome && !(o.key == some name))).all
      (fun o => o.key.isSome) = true := by
    rw [List.all_eq_true]
    intro o ho2
    have hpred := (List.mem_filter.mp ho2).2
    rw [Bool.and_eq_true] at hpred
    exact hpred.1
  have hall : (cps.map CommonPrefix.pfx ++ [some px] ++
      (objects.filter (fun o => o.key.isSome && !(o.key == some name))).map Object.key).all
      (fun p => p.isSome) = true := by
    rw [List.all_eq_true]
    intro p hpmem
    rcases List.mem_append.mp hpmem with h1 | h1
    · rcases List.mem_append.mp h1 with h2 | h2
      · rcases List.mem_map.mp h2 with ⟨c, hcm, rfl⟩
        have hcc := (List.all_eq_true.mp hc) c hcm
        rw [Bool.and_eq_true] at hcc
        exact hcc.1
      · simp only [List.mem_singleton] at h2
        subst h2; rfl
    · rcases List.mem_map.mp h1 with ⟨o, hom, rfl⟩
      exact (List.all_eq_true.mp hvsome) o hom
  have hnil : ∀ y ∈ (cps.map CommonPrefix.pfx ++ [some px] ++
      (objects.filter (fun o => o.key.isSome && !(o.key == some name))).map Object.key).map
      (fun p => segsOf name (p.getD "")), y = [] := by
    intro y hy
    rcases List.mem_map.mp hy with ⟨p, hpmem, rfl⟩
    rcases List.mem_append.mp hpmem with h1 | h1
    · rcases List.mem_append.mp h1 with h2 | h2
      · rcases List.mem_map.mp h2 with ⟨c, hcm, rfl⟩
        have hcc := (List.all_eq_true.mp hc) c hcm
        rw [Bool.and_eq_true] at hcc
        exact eq_of_beq hcc.2
      · simp only [List.mem_singleton] at h2
        subst h2
        simpa using hp
    · rcases List.mem_map.mp h1 with ⟨o, hom, rfl⟩
      exact eq_of_beq ((List.all_eq_true.mp ho) o hom)
  have hlp : File.longest_path name
      (objects.filter (fun o => o.key.isSome && !(o.key == some name))) px cps
      = some [] := by
    simp only [File.longest_path]
    rw [if_pos hall]
    cases hM : (cps.map CommonPrefix.pfx ++ [some px] ++
        (objects.filter (fun o => o.key.isSome && !(o.key == some name))).map
          Object.key).map (fun p => segsOf name (p.getD "")) with
    | nil =>
      exfalso
      have hlen := congrArg List.length hM
      simp [List.length_append] at hlen
    | cons s ss =>
      have hs : s = [] := hnil s (by rw [hM]; exact List.mem_cons_self _ _)
      subst hs
      simp only [Option.some.injEq]
      exact maxSeg_nil ss (fun z hz => hnil z (by rw [hM]; exact List.mem_cons_of_mem _ hz))
  simp only [File.new, hlp]
  cases File.build_file px (File.name_without_slash name) none
      (objects.filter (fun o => o.key.isSome && !(o.key == some name))) with
  | none => rfl
  | some root => rfl

/-- Claim C10 witness: no records, no common prefixes, and a base prefix
whose only segment equals the origin name. -/
theorem C10_witness : File.new "a/" [] "a/" [] = none :=
  C10_all_empty_candidates "a/" "a/" [] [] (by decide) (by decide) (by decide)
